import Mathlib

/-!
# Immix block/line heap manager: shallow embedding

Embedding of the block recycler, block allocator pools and mutator
bump-pointer fast path of the Immix-style heap manager.

The repository source under `src/` contains only the header
`gc/immix/Block.h`: the declaration of `Block_Recycle` and the constant
`LAST_HOLE = -1`.  The bodies of `Block_Recycle`, the block-allocator
pool operations and the mutator allocation fast path are not under
`src/`, so they are modelled from the specification, as marked on each
definition below.
-/

namespace Immix

/-- Block states, from the spec's data model: `state ∈ {Free, Recyclable,
Unavailable}`. -/
inductive BlockState where
  | Free
  | Recyclable
  | Unavailable
deriving DecidableEq, Repr

/-- `LAST_HOLE`, from `src/.../gc/immix/Block.h`: the reserved terminator
value written into the terminal hole's "next" field.  Valid hole offsets
are line indices, i.e. non-negative, so the terminator is kept as an
integer. -/
def LAST_HOLE : Int := -1

/-- A hole record as threaded through the block's free memory: the hole's
first word stores its length in lines and the line offset of the next
hole (or `LAST_HOLE`).  Modelled from the spec: "each hole's first
machine word stores the offset of the next hole (or a terminal sentinel
value denoting no further holes)". -/
structure FreeLineMeta where
  size : Nat
  next : Int
deriving DecidableEq, Repr

/-- Prepends the free line `i` to a hole list produced by scanning the
lines after `i`: if the next hole starts exactly at line `i + 1` the
free line extends it (contiguous unmarked lines merge into one hole),
otherwise line `i` opens a new one-line hole. -/
def addFreeLine (i : Nat) : List (Nat × Nat) → List (Nat × Nat)
  | [] => [(i, 1)]
  | (o, l) :: t => if o = i + 1 then (i, l + 1) :: t else (i, 1) :: (o, l) :: t

/-- Modelled from the spec: the left-to-right line scan of
`Block_Recycle` (§4.2), whose body `Block.c` is not under `src/`.
`scanLines marks i prev` scans the line-mark list `marks`, where `i` is
the index of the first line of `marks` within the block and `prev`
records whether the line just before it is marked.  It returns the list
of holes `(startOffset, lengthInLines)` found, in scan order, together
with the number of conservatively excluded lines: per the conservative
boundary rule, the first unmarked line after a marked run is skipped
and does not enter any hole (no object-start disambiguation bits are
available, so the exclusion always applies). -/
def scanLines : List Bool → Nat → Bool → List (Nat × Nat) × Nat
  | [], _, _ => ([], 0)
  | true :: rest, i, _ => scanLines rest (i + 1) true
  | false :: rest, i, true =>
    ((scanLines rest (i + 1) false).1, (scanLines rest (i + 1) false).2 + 1)
  | false :: rest, i, false =>
    (addFreeLine i (scanLines rest (i + 1) false).1, (scanLines rest (i + 1) false).2)

/-- Total number of free lines described by a hole list. -/
def holesSum (hs : List (Nat × Nat)) : Nat :=
  (hs.map Prod.snd).sum

/-- Modelled from the spec: the minimum allocation unit measured in
lines.  The spec leaves the exact minimum-allocation-granularity
threshold as an implementer policy constant (§9); the model fixes the
natural minimal choice of one line, so a block is `Unavailable` exactly
when recycling leaves it no free line at all. -/
def MIN_ALLOC_LINES : Nat := 1

/-- Result of recycling one block: the block's new state, its installed
hole list, the number of conservatively excluded lines, and the line-mark
state after the pass (the recycler reads the line marks and does not
rewrite them: "written by the tracer, read by the recycler"). -/
structure RecycleResult where
  state : BlockState
  holes : List (Nat × Nat)
  excluded : Nat
  marksAfter : List Bool
deriving DecidableEq, Repr

/-- Modelled from the spec: `Block_Recycle` (§4.2), whose body `Block.c`
is not under `src/` (only its declaration in `Block.h` is).  A block is
abstracted by its per-line mark list.  The lines are scanned left to
right building the hole list under the conservative boundary rule; if no
line was ever marked the block becomes `Free` (its single hole spans all
usable lines — the reserved metadata line is outside the line-mark
table); if the resulting free-line total is below the minimum allocation
unit the block becomes `Unavailable` and the hole list is left empty;
otherwise it becomes `Recyclable`. -/
def Block_Recycle (marks : List Bool) : RecycleResult :=
  let r := scanLines marks 0 false
  if marks.any (fun m => m) then
    if holesSum r.1 < MIN_ALLOC_LINES then
      ⟨BlockState.Unavailable, [], r.2, marks⟩
    else
      ⟨BlockState.Recyclable, r.1, r.2, marks⟩
  else
    ⟨BlockState.Free, r.1, r.2, marks⟩

/-- Threads a hole list through memory: for each hole, the
`FreeLineMeta` record written at its start line, holding the hole's
length and the offset of the next hole, `LAST_HOLE` for the terminal
hole.  Modelled from the spec's hole-list representation. -/
def threadHoles : List (Nat × Nat) → List (Nat × FreeLineMeta)
  | [] => []
  | (o, l) :: rest =>
    (o, ⟨l, match rest with
            | [] => LAST_HOLE
            | (o2, _) :: _ => Int.ofNat o2⟩) :: threadHoles rest

/-- Number of marked lines in a block. -/
def markedCount (marks : List Bool) : Nat :=
  marks.count true

/-- Free-line count of a mark list, per the conservative boundary rule,
defined directly on the marks (independently of the scan): an unmarked
line counts as free unless it immediately follows a marked line.
`prev` records whether the line before the list head is marked. -/
def freeCountAux : List Bool → Bool → Nat
  | [], _ => 0
  | true :: rest, _ => freeCountAux rest true
  | false :: rest, true => freeCountAux rest false
  | false :: rest, false => freeCountAux rest false + 1

/-- Conservatively-excluded line count of a mark list, defined directly
on the marks: the unmarked lines that immediately follow a marked
line. -/
def exclCountAux : List Bool → Bool → Nat
  | [], _ => 0
  | true :: rest, _ => exclCountAux rest true
  | false :: rest, true => exclCountAux rest false + 1
  | false :: rest, false => exclCountAux rest false

/-- The block's free-line count: unmarked lines not conservatively
excluded, with no line preceding the first. -/
def freeLineCount (marks : List Bool) : Nat :=
  freeCountAux marks false

/-- Well-formedness of a hole list relative to a lower bound `lb` on
offsets: every hole starts at or after `lb`, has positive length, and
ends at or before the start of the next hole (hence offsets are strictly
ascending and holes never overlap). -/
def holesChain : Nat → List (Nat × Nat) → Bool
  | _, [] => true
  | lb, (o, l) :: rest => decide (lb ≤ o) && decide (1 ≤ l) && holesChain (o + l) rest

/-- Modelled from the spec: the `BlockAllocator` pools (§4.3), whose
implementation is not under `src/`.  Blocks are abstracted by
identifiers; the allocator holds a free-block pool and a
recyclable-block pool. -/
structure BlockAllocator where
  freeBlocks : List Nat
  recycledBlocks : List Nat
deriving DecidableEq, Repr

/-- Result of `acquireBlock`: a block together with the pools left
behind, or `Exhausted` when no block can be served. -/
inductive AcquireResult where
  | acquired (block : Nat) (pools : BlockAllocator)
  | Exhausted
deriving DecidableEq, Repr

/-- Modelled from the spec: `acquireBlock() → Block | Exhausted`
(§4.3), whose implementation is not under `src/`.  Recyclable blocks
are preferred to maximize reuse density before consuming virgin free
blocks; `Exhausted` is returned when both pools are empty. -/
def acquireBlock (a : BlockAllocator) : AcquireResult :=
  match a.recycledBlocks with
  | b :: rest => AcquireResult.acquired b ⟨a.freeBlocks, rest⟩
  | [] =>
    match a.freeBlocks with
    | b :: rest => AcquireResult.acquired b ⟨rest, []⟩
    | [] => AcquireResult.Exhausted

/-- Per allocation-context mutator state: current block reference,
bump cursor and limit within the active hole, and the remaining
hole-list pointer for the active block.  Modelled from the spec's
allocator-cursor data model. -/
structure AllocatorCursor where
  block : Nat
  cursor : Nat
  limit : Nat
  holePtr : Int
deriving DecidableEq, Repr

/-- Modelled from the spec: the mutator bump-pointer fast path
`allocate(size) → pointer | Fail` (§4.4), whose implementation is not
under `src/`.  When the cursor advanced by `size` stays within the
current hole's limit, the pre-bump cursor is returned and the only
state change is the cursor advance.  The slow path (advancing to the
next hole or acquiring a new block) is outside the fast-path claim and
is abstracted as `none` with the state returned unchanged. -/
def allocate (a : AllocatorCursor) (size : Nat) : Option Nat × AllocatorCursor :=
  if a.cursor + size ≤ a.limit then
    (some a.cursor, ⟨a.block, a.cursor + size, a.limit, a.holePtr⟩)
  else
    (none, a)

/-! ## Helper lemmas about the scan -/

theorem holesSum_nil : holesSum [] = 0 := rfl

theorem holesSum_cons (h : Nat × Nat) (t : List (Nat × Nat)) :
    holesSum (h :: t) = h.2 + holesSum t := by
  simp [holesSum, Nat.add_comm]

theorem holesSum_addFreeLine (i : Nat) (hs : List (Nat × Nat)) :
    holesSum (addFreeLine i hs) = holesSum hs + 1 := by
  cases hs with
  | nil => simp [addFreeLine, holesSum]
  | cons h t =>
    obtain ⟨o, l⟩ := h
    by_cases he : o = i + 1 <;>
      simp [addFreeLine, he, holesSum_cons] <;> omega

theorem scanLines_snd (ms : List Bool) : ∀ (i : Nat) (prev : Bool),
    (scanLines ms i prev).2 = exclCountAux ms prev := by
  induction ms with
  | nil => intro i prev; rfl
  | cons m rest ih =>
    intro i prev
    cases m with
    | true => simpa [scanLines, exclCountAux] using ih (i + 1) true
    | false =>
      cases prev with
      | true => simp [scanLines, exclCountAux, ih (i + 1) false]
      | false => simp [scanLines, exclCountAux, ih (i + 1) false]

theorem scanLines_sum (ms : List Bool) : ∀ (i : Nat) (prev : Bool),
    holesSum (scanLines ms i prev).1 = freeCountAux ms prev := by
  induction ms with
  | nil => intro i prev; rfl
  | cons m rest ih =>
    intro i prev
    cases m with
    | true => simpa [scanLines, freeCountAux] using ih (i + 1) true
    | false =>
      cases prev with
      | true => simp [scanLines, freeCountAux, ih (i + 1) false]
      | false =>
        simp [scanLines, freeCountAux, holesSum_addFreeLine, ih (i + 1) false]

theorem markedCount_cons_true (rest : List Bool) :
    markedCount (true :: rest) = markedCount rest + 1 := by
  simp [markedCount, List.count_cons]

theorem markedCount_cons_false (rest : List Bool) :
    markedCount (false :: rest) = markedCount rest := by
  simp [markedCount, List.count_cons]

theorem freeCountAux_cons_true (rest : List Bool) (prev : Bool) :
    freeCountAux (true :: rest) prev = freeCountAux rest true := by
  cases prev <;> rfl

theorem exclCountAux_cons_true (rest : List Bool) (prev : Bool) :
    exclCountAux (true :: rest) prev = exclCountAux rest true := by
  cases prev <;> rfl

theorem counts_partition (ms : List Bool) : ∀ (prev : Bool),
    freeCountAux ms prev + exclCountAux ms prev + markedCount ms = ms.length := by
  induction ms with
  | nil => intro prev; rfl
  | cons m rest ih =>
    intro prev
    have ht := ih true
    have hf := ih false
    cases m with
    | true =>
      rw [freeCountAux_cons_true, exclCountAux_cons_true, markedCount_cons_true,
        List.length_cons]
      omega
    | false =>
      cases prev with
      | true =>
        show freeCountAux rest false + (exclCountAux rest false + 1) +
          markedCount (false :: rest) = (false :: rest).length
        rw [markedCount_cons_false, List.length_cons]
        omega
      | false =>
        show freeCountAux rest false + 1 + exclCountAux rest false +
          markedCount (false :: rest) = (false :: rest).length
        rw [markedCount_cons_false, List.length_cons]
        omega

theorem holesChain_addFreeLine (i : Nat) (hs : List (Nat × Nat))
    (h : holesChain (i + 1) hs = true) :
    holesChain i (addFreeLine i hs) = true := by
  cases hs with
  | nil => simp [addFreeLine, holesChain]
  | cons hd t =>
    obtain ⟨o, l⟩ := hd
    simp only [holesChain, Bool.and_eq_true, decide_eq_true_eq] at h
    by_cases he : o = i + 1
    · subst he
      simp only [addFreeLine, if_pos rfl, holesChain, Bool.and_eq_true,
        decide_eq_true_eq]
      refine ⟨⟨Nat.le_refl i, by omega⟩, ?_⟩
      have : i + (l + 1) = i + 1 + l := by omega
      rw [this]
      exact h.2
    · simp only [addFreeLine, if_neg he, holesChain, Bool.and_eq_true,
        decide_eq_true_eq]
      exact ⟨⟨Nat.le_refl i, Nat.le_refl 1⟩, ⟨⟨by omega, h.1.2⟩, h.2⟩⟩

theorem scanLines_chain (ms : List Bool) : ∀ (i : Nat) (prev : Bool),
    holesChain i (scanLines ms i prev).1 = true := by
  induction ms with
  | nil => intro i prev; rfl
  | cons m rest ih =>
    intro i prev
    have mono : ∀ (lb lb' : Nat) (hs : List (Nat × Nat)), lb' ≤ lb →
        holesChain lb hs = true → holesChain lb' hs = true := by
      intro lb lb' hs
      cases hs with
      | nil => intro _ _; rfl
      | cons hd t =>
        obtain ⟨o, l⟩ := hd
        intro hle hch
        simp only [holesChain, Bool.and_eq_true, decide_eq_true_eq] at *
        exact ⟨⟨Nat.le_trans hle hch.1.1, hch.1.2⟩, hch.2⟩
    cases m with
    | true =>
      have := ih (i + 1) true
      simpa [scanLines] using mono (i + 1) i _ (Nat.le_succ i) this
    | false =>
      cases prev with
      | true =>
        have := ih (i + 1) false
        simpa [scanLines] using mono (i + 1) i _ (Nat.le_succ i) this
      | false =>
        simpa [scanLines] using holesChain_addFreeLine i _ (ih (i + 1) false)

theorem scanLines_allTrue (ms : List Bool) (hm : ∀ m ∈ ms, m = true) :
    ∀ (i : Nat) (prev : Bool), scanLines ms i prev = ([], 0) := by
  induction ms with
  | nil => intro i prev; rfl
  | cons m rest ih =>
    intro i prev
    have hmt : m = true := hm m (by simp)
    subst hmt
    simpa [scanLines] using ih (fun x hx => hm x (by simp [hx])) (i + 1) true

theorem scanLines_allFalse (ms : List Bool) (hm : ∀ m ∈ ms, m = false) :
    ms ≠ [] → ∀ (i : Nat), scanLines ms i false = ([(i, ms.length)], 0) := by
  induction ms with
  | nil => intro h; exact absurd rfl h
  | cons m rest ih =>
    intro _ i
    have hmf : m = false := hm m (by simp)
    subst hmf
    cases rest with
    | nil => simp [scanLines, addFreeLine]
    | cons r t =>
      have hrest := ih (fun x hx => hm x (by simp [hx])) (by simp) (i + 1)
      simp [scanLines, hrest, addFreeLine]

theorem freeCountAux_allFalse (ms : List Bool) (hm : ∀ m ∈ ms, m = false) :
    freeCountAux ms false = ms.length := by
  induction ms with
  | nil => rfl
  | cons m rest ih =>
    have hmf : m = false := hm m (by simp)
    subst hmf
    simp [freeCountAux, ih (fun x hx => hm x (by simp [hx]))]

theorem markedCount_eq_zero_iff (ms : List Bool) :
    markedCount ms = 0 ↔ ms.any (fun m => m) = false := by
  induction ms with
  | nil => simp [markedCount]
  | cons m rest ih =>
    cases m with
    | true => simp [markedCount_cons_true]
    | false =>
      rw [markedCount_cons_false]
      simpa using ih

theorem Block_Recycle_marksAfter (marks : List Bool) :
    (Block_Recycle marks).marksAfter = marks := by
  unfold Block_Recycle
  by_cases h : marks.any (fun m => m) = true
  · by_cases h2 : holesSum (scanLines marks 0 false).1 < MIN_ALLOC_LINES
    · simp [h, h2]
    · simp [h, h2]
  · simp [h]

/-! ## Claim theorems -/

/-- Claim C1: for every block after recycling, the block's state is
`Free` iff no line of the block is marked; `Unavailable` iff the number
of free lines remaining after conservative exclusion is insufficient to
host the minimum allocation unit; and `Recyclable` in every other
case. -/
theorem Block_Recycle_state_classification (marks : List Bool)
    (hn : 0 < marks.length) :
    ((Block_Recycle marks).state = BlockState.Free ↔ markedCount marks = 0)
  ∧ ((Block_Recycle marks).state = BlockState.Unavailable ↔
      freeLineCount marks < MIN_ALLOC_LINES)
  ∧ ((Block_Recycle marks).state = BlockState.Recyclable ↔
      (markedCount marks ≠ 0 ∧ MIN_ALLOC_LINES ≤ freeLineCount marks)) := by
  by_cases h : marks.any (fun m => m) = true
  · have hm0 : markedCount marks ≠ 0 := by
      intro h0
      rw [markedCount_eq_zero_iff] at h0
      simp [h0] at h
    by_cases h2 : holesSum (scanLines marks 0 false).1 < MIN_ALLOC_LINES
    · have hstate : (Block_Recycle marks).state = BlockState.Unavailable := by
        unfold Block_Recycle
        simp [h, h2]
      have hfree : freeLineCount marks < MIN_ALLOC_LINES := by
        rw [freeLineCount, ← scanLines_sum marks 0 false]
        exact h2
      rw [hstate]
      exact ⟨⟨fun hcon => absurd hcon (by decide), fun h0 => absurd h0 hm0⟩,
             ⟨fun _ => hfree, fun _ => rfl⟩,
             ⟨fun hcon => absurd hcon (by decide),
              fun hco => absurd hfree (Nat.not_lt.mpr hco.2)⟩⟩
    · have hstate : (Block_Recycle marks).state = BlockState.Recyclable := by
        unfold Block_Recycle
        simp [h, h2]
      have hfree : MIN_ALLOC_LINES ≤ freeLineCount marks := by
        rw [freeLineCount, ← scanLines_sum marks 0 false]
        exact Nat.not_lt.mp h2
      rw [hstate]
      exact ⟨⟨fun hcon => absurd hcon (by decide), fun h0 => absurd h0 hm0⟩,
             ⟨fun hcon => absurd hcon (by decide),
              fun hlt => absurd hlt (Nat.not_lt.mpr hfree)⟩,
             ⟨fun _ => ⟨hm0, hfree⟩, fun _ => rfl⟩⟩
  · have hany : marks.any (fun m => m) = false := by simpa using h
    have hm0 : markedCount marks = 0 := (markedCount_eq_zero_iff marks).mpr hany
    have hall : ∀ m ∈ marks, m = false := by
      intro m hmem
      have hx : ¬ m = true := by
        intro hmt
        have htr : marks.any (fun x => x) = true :=
          List.any_eq_true.mpr ⟨m, hmem, hmt⟩
        rw [htr] at hany
        cases hany
      simpa using hx
    have hfree : MIN_ALLOC_LINES ≤ freeLineCount marks := by
      rw [freeLineCount, freeCountAux_allFalse marks hall]
      simpa [MIN_ALLOC_LINES] using hn
    have hstate : (Block_Recycle marks).state = BlockState.Free := by
      unfold Block_Recycle
      simp [h]
    rw [hstate]
    exact ⟨⟨fun _ => hm0, fun _ => rfl⟩,
           ⟨fun hcon => absurd hcon (by decide),
            fun hlt => absurd hlt (Nat.not_lt.mpr hfree)⟩,
           ⟨fun hcon => absurd hcon (by decide),
            fun hco => absurd hm0 hco.1⟩⟩

/-- Witness for C1: the classification evaluated on the concrete block
`[true, false, false]`, which recycling makes `Recyclable`. -/
theorem Block_Recycle_state_classification_witness :
    0 < ([true, false, false] : List Bool).length ∧
    ((Block_Recycle [true, false, false]).state = BlockState.Recyclable ↔
      (markedCount [true, false, false] ≠ 0 ∧
        MIN_ALLOC_LINES ≤ freeLineCount [true, false, false])) :=
  ⟨by decide, (Block_Recycle_state_classification [true, false, false] (by decide)).2.2⟩

/-- Counterexample to claim C2: on the 8-line block with marks exactly
at lines {0,1,2} and {6}, recycling does not produce the hole list
`[(4,2),(7,1)]`: line 7 immediately follows the marked line 6, so the
conservative boundary rule excludes it as well. -/
theorem Block_Recycle_C2_counterexample :
    (Block_Recycle [true, true, true, false, false, false, true, false]).holes ≠
      [(4, 2), (7, 1)] := by decide

/-- Claim C2 amended: for an 8-line block whose line marks are exactly
{0,1,2} and {6}, recycling excludes line 3 (following the marked run
ending at line 2) and also line 7 (following the marked line 6) from
any hole, and produces exactly the hole list `[(4,2)]`. -/
theorem Block_Recycle_C2_amended :
    (Block_Recycle [true, true, true, false, false, false, true, false]).holes =
      [(4, 2)] ∧
    (Block_Recycle [true, true, true, false, false, false, true, false]).excluded =
      2 := by decide

/-- Claim C3: for every block and every line-mark configuration, after
recycling the sum of the hole lengths plus the marked-line count plus
the count of conservatively excluded lines equals the total number of
lines of the block. -/
theorem Block_Recycle_conservation (marks : List Bool) :
    holesSum (Block_Recycle marks).holes + markedCount marks +
      (Block_Recycle marks).excluded = marks.length := by
  have hsum := scanLines_sum marks 0 false
  have hsnd := scanLines_snd marks 0 false
  have hpart := counts_partition marks false
  unfold Block_Recycle
  by_cases h : marks.any (fun m => m) = true
  · by_cases h2 : holesSum (scanLines marks 0 false).1 < MIN_ALLOC_LINES
    · have h2' : holesSum (scanLines marks 0 false).1 < 1 := h2
      simp only [h, if_true, h2, if_true]
      rw [holesSum_nil]
      omega
    · simp only [h, if_true, h2, if_false]
      omega
  · simp [h]
    omega

/-- Claim C4: for every block in which zero lines are marked, recycling
classifies the block as `Free` and installs a hole list containing
exactly one hole covering all usable lines of the block (the reserved
metadata line lies outside the line-mark table). -/
theorem Block_Recycle_noMarks (marks : List Bool) (hn : 0 < marks.length)
    (hm : markedCount marks = 0) :
    (Block_Recycle marks).state = BlockState.Free ∧
    (Block_Recycle marks).holes = [(0, marks.length)] := by
  have hany : marks.any (fun m => m) = false := (markedCount_eq_zero_iff marks).mp hm
  have hall : ∀ m ∈ marks, m = false := by
    intro m hmem
    have hx : ¬ m = true := by
      intro hmt
      have htr : marks.any (fun x => x) = true :=
        List.any_eq_true.mpr ⟨m, hmem, hmt⟩
      rw [htr] at hany
      cases hany
    simpa using hx
  have hne : marks ≠ [] := List.length_pos.mp hn
  have hscan := scanLines_allFalse marks hall hne 0
  constructor
  · unfold Block_Recycle
    simp [hany]
  · unfold Block_Recycle
    simp [hany, hscan]

/-- Witness for C4: the zero-marks block `[false, false]` recycles to
`Free` with the single hole `(0, 2)`. -/
theorem Block_Recycle_noMarks_witness :
    (Block_Recycle [false, false]).state = BlockState.Free ∧
    (Block_Recycle [false, false]).holes = [(0, 2)] :=
  Block_Recycle_noMarks [false, false] (by decide) (by decide)

/-- Claim C5: for every block in which every line is marked, recycling
classifies the block as `Unavailable` and installs an empty hole
list. -/
theorem Block_Recycle_allMarked (marks : List Bool) (hn : 0 < marks.length)
    (hm : ∀ m ∈ marks, m = true) :
    (Block_Recycle marks).state = BlockState.Unavailable ∧
    (Block_Recycle marks).holes = [] := by
  have hne : marks ≠ [] := List.length_pos.mp hn
  have hany : marks.any (fun m => m) = true := by
    cases marks with
    | nil => exact absurd rfl hne
    | cons m rest =>
      have := hm m (by simp)
      simp [this]
  have hscan := scanLines_allTrue marks hm 0 false
  have h2 : holesSum (scanLines marks 0 false).1 < MIN_ALLOC_LINES := by
    rw [hscan]
    decide
  constructor
  · unfold Block_Recycle
    simp [hany, h2]
  · unfold Block_Recycle
    simp [hany, h2]

/-- Witness for C5: the fully marked block `[true, true]` recycles to
`Unavailable` with no holes. -/
theorem Block_Recycle_allMarked_witness :
    (Block_Recycle [true, true]).state = BlockState.Unavailable ∧
    (Block_Recycle [true, true]).holes = [] :=
  Block_Recycle_allMarked [true, true] (by decide) (by decide)

theorem holesChain_le (hs : List (Nat × Nat)) : ∀ (lb : Nat),
    holesChain lb hs = true → ∀ h ∈ hs, lb ≤ h.1 := by
  induction hs with
  | nil =>
    intro lb _ h hmem
    cases hmem
  | cons hd t ih =>
    obtain ⟨o, l⟩ := hd
    intro lb hch h hmem
    simp only [holesChain, Bool.and_eq_true, decide_eq_true_eq] at hch
    rcases List.mem_cons.mp hmem with heq | hmt
    · subst heq
      exact hch.1.1
    · exact Nat.le_trans (Nat.le_trans hch.1.1 (Nat.le_add_right o l))
        (ih (o + l) hch.2 h hmt)

theorem holesChain_pos (hs : List (Nat × Nat)) : ∀ (lb : Nat),
    holesChain lb hs = true → ∀ h ∈ hs, 1 ≤ h.2 := by
  induction hs with
  | nil =>
    intro lb _ h hmem
    cases hmem
  | cons hd t ih =>
    obtain ⟨o, l⟩ := hd
    intro lb hch h hmem
    simp only [holesChain, Bool.and_eq_true, decide_eq_true_eq] at hch
    rcases List.mem_cons.mp hmem with heq | hmt
    · subst heq
      exact hch.1.2
    · exact ih (o + l) hch.2 h hmt

theorem holesChain_pairwise (hs : List (Nat × Nat)) : ∀ (lb : Nat),
    holesChain lb hs = true →
    List.Pairwise (fun a b : Nat × Nat => a.1 + a.2 ≤ b.1) hs := by
  induction hs with
  | nil =>
    intro _ _
    exact List.Pairwise.nil
  | cons hd t ih =>
    obtain ⟨o, l⟩ := hd
    intro lb hch
    simp only [holesChain, Bool.and_eq_true, decide_eq_true_eq] at hch
    exact List.Pairwise.cons (fun b hb => holesChain_le t (o + l) hch.2 b hb)
      (ih (o + l) hch.2)

theorem Block_Recycle_holesChain (marks : List Bool) :
    holesChain 0 (Block_Recycle marks).holes = true := by
  unfold Block_Recycle
  by_cases h : marks.any (fun m => m) = true
  · by_cases h2 : holesSum (scanLines marks 0 false).1 < MIN_ALLOC_LINES
    · simp [h, h2, holesChain]
    · simpa [h, h2] using scanLines_chain marks 0 false
  · simpa [h] using scanLines_chain marks 0 false

theorem Block_Recycle_holesSum (marks : List Bool) :
    holesSum (Block_Recycle marks).holes = freeLineCount marks := by
  have hsum := scanLines_sum marks 0 false
  unfold Block_Recycle freeLineCount
  by_cases h : marks.any (fun m => m) = true
  · by_cases h2 : holesSum (scanLines marks 0 false).1 < MIN_ALLOC_LINES
    · have h2' : holesSum (scanLines marks 0 false).1 < 1 := h2
      simp only [h, if_true, h2, if_true]
      rw [holesSum_nil]
      omega
    · simp only [h, if_true, h2, if_false]
      omega
  · simp [h]
    omega

/-- Claim C6: for every block after recycling, the holes in its hole
list are strictly ordered by ascending offset, no two holes overlap
(each hole ends at or before the start of every later hole), and the
sum of the hole lengths equals the block's free-line count. -/
theorem Block_Recycle_holes_wellFormed (marks : List Bool) :
    List.Pairwise (fun a b : Nat × Nat => a.1 + a.2 ≤ b.1)
      (Block_Recycle marks).holes
  ∧ List.Pairwise (fun a b : Nat × Nat => a.1 < b.1) (Block_Recycle marks).holes
  ∧ (∀ hole ∈ (Block_Recycle marks).holes, 1 ≤ hole.2)
  ∧ holesSum (Block_Recycle marks).holes = freeLineCount marks := by
  have hchain := Block_Recycle_holesChain marks
  have hpw := holesChain_pairwise _ 0 hchain
  have hpos := holesChain_pos _ 0 hchain
  refine ⟨hpw, ?_, hpos, Block_Recycle_holesSum marks⟩
  refine hpw.imp_of_mem ?_
  intro a b ha _ hr
  have := hpos a ha
  omega

/-- Witness for C6: the hole-length sum of the recycled block
`[true, false, false]` equals its free-line count. -/
theorem Block_Recycle_holes_wellFormed_witness :
    holesSum (Block_Recycle [true, false, false]).holes =
      freeLineCount [true, false, false] :=
  (Block_Recycle_holes_wellFormed [true, false, false]).2.2.2

/-- Claim C7: for every block, invoking recycling twice on identical,
unmodified line-mark state yields an identical result (hole list and
block state) both times: the recycler reads the marks without changing
them, so a second pass starts from the same marks. -/
theorem Block_Recycle_idempotent (marks : List Bool) :
    Block_Recycle (Block_Recycle marks).marksAfter = Block_Recycle marks := by
  rw [Block_Recycle_marksAfter]

theorem threadHoles_last_next (hd : Nat × Nat) (t : List (Nat × Nat)) :
    ∀ (d : Nat × FreeLineMeta),
      ((threadHoles (hd :: t)).getLastD d).2.next = LAST_HOLE := by
  induction t generalizing hd with
  | nil =>
    intro d
    obtain ⟨o, l⟩ := hd
    rfl
  | cons t1 t2 ih =>
    intro d
    obtain ⟨o, l⟩ := hd
    obtain ⟨o2, l2⟩ := t1
    show ((((o, ⟨l, Int.ofNat o2⟩) : Nat × FreeLineMeta) ::
      threadHoles ((o2, l2) :: t2)).getLastD d).2.next = LAST_HOLE
    rw [List.getLastD_cons]
    exact ih (o2, l2) (o, ⟨l, Int.ofNat o2⟩)

/-- Claim C8: for every block with a non-empty hole list after
recycling, the terminal hole's "next" field holds the reserved
terminator `LAST_HOLE` (the value `-1` from `Block.h`), and this value
is distinct from every legitimate hole offset, so hole-list traversal
always distinguishes "no further holes" from a valid next hole. -/
theorem Block_Recycle_terminator (marks : List Bool)
    (hne : (Block_Recycle marks).holes ≠ []) :
    ((threadHoles (Block_Recycle marks).holes).getLastD
        (0, ⟨0, 0⟩)).2.next = LAST_HOLE
  ∧ (∀ hole ∈ (Block_Recycle marks).holes, Int.ofNat hole.1 ≠ LAST_HOLE) := by
  constructor
  · cases hh : (Block_Recycle marks).holes with
    | nil => exact absurd hh hne
    | cons hd t =>
      exact threadHoles_last_next hd t (0, ⟨0, 0⟩)
  · intro hole _ hcon
    rw [LAST_HOLE, Int.ofNat_eq_coe] at hcon
    omega

/-- Witness for C8: recycling `[true, false, false]` leaves the single
hole `(2, 1)`, whose threaded record carries the terminator. -/
theorem Block_Recycle_terminator_witness :
    ((threadHoles (Block_Recycle [true, false, false]).holes).getLastD
        (0, ⟨0, 0⟩)).2.next = LAST_HOLE :=
  (Block_Recycle_terminator [true, false, false] (by decide)).1

/-- Claim C9: for every state of the `BlockAllocator` pools,
`acquireBlock` returns a block from the recyclable pool whenever that
pool is non-empty, returns a block from the free pool only when the
recyclable pool is empty, and returns `Exhausted` exactly when both
pools are empty. -/
theorem acquireBlock_policy (a : BlockAllocator) :
    (∀ b rb, a.recycledBlocks = b :: rb →
      acquireBlock a = AcquireResult.acquired b ⟨a.freeBlocks, rb⟩)
  ∧ (∀ b fb, a.recycledBlocks = [] → a.freeBlocks = b :: fb →
      acquireBlock a = AcquireResult.acquired b ⟨fb, []⟩)
  ∧ (acquireBlock a = AcquireResult.Exhausted ↔
      a.freeBlocks = [] ∧ a.recycledBlocks = []) := by
  obtain ⟨fb, rb⟩ := a
  refine ⟨?_, ?_, ?_⟩
  · intro b rest hr
    cases hr
    rfl
  · intro b rest hr hf
    cases hr
    cases hf
    rfl
  · cases rb with
    | cons b rest => simp [acquireBlock]
    | nil =>
      cases fb with
      | cons b rest => simp [acquireBlock]
      | nil => simp [acquireBlock]

/-- Witness for C9: on pools with free block 1 and recyclable block 2,
acquisition serves block 2 from the recyclable pool; with the
recyclable pool empty it serves block 1 from the free pool. -/
theorem acquireBlock_policy_witness :
    acquireBlock ⟨[1], [2]⟩ = AcquireResult.acquired 2 ⟨[1], []⟩
  ∧ acquireBlock ⟨[1], []⟩ = AcquireResult.acquired 1 ⟨[], []⟩ :=
  ⟨(acquireBlock_policy ⟨[1], [2]⟩).1 2 [] rfl,
   (acquireBlock_policy ⟨[1], []⟩).2.1 1 [] rfl rfl⟩

/-- Claim C10: for every call `allocate(size)` in which the current
cursor advanced by `size` stays within the current hole's limit, the
call returns the cursor value as it was before the call, and its only
state change is advancing the cursor by `size`: the block reference,
the hole limit and the hole-list pointer are untouched. -/
theorem allocate_fast_path (a : AllocatorCursor) (size : Nat)
    (h : a.cursor + size ≤ a.limit) :
    (allocate a size).1 = some a.cursor
  ∧ (allocate a size).2.cursor = a.cursor + size
  ∧ (allocate a size).2.block = a.block
  ∧ (allocate a size).2.limit = a.limit
  ∧ (allocate a size).2.holePtr = a.holePtr := by
  simp [allocate, h]

/-- Witness for C10: allocating 16 units from cursor 100 with limit 200
returns pointer 100 and advances only the cursor, to 116. -/
theorem allocate_fast_path_witness :
    (allocate ⟨5, 100, 200, -1⟩ 16).1 = some 100
  ∧ (allocate ⟨5, 100, 200, -1⟩ 16).2.cursor = 116
  ∧ (allocate ⟨5, 100, 200, -1⟩ 16).2.block = 5
  ∧ (allocate ⟨5, 100, 200, -1⟩ 16).2.limit = 200
  ∧ (allocate ⟨5, 100, 200, -1⟩ 16).2.holePtr = -1 :=
  allocate_fast_path ⟨5, 100, 200, -1⟩ 16 (by decide)

end Immix
